import Mathlib

/-!
# Verification of `cmd/merge/main.go`

Shallow embedding of the path-instruction merge tool.

A Go `string` is modelled as the list of its runes (`List Char`): every string
the tool handles comes out of the YAML parser, so it is valid UTF-8, and the
library calls used by the program (`strings.Split` on an ASCII separator,
`strings.TrimSpace`, `strings.Join`, the regular expression) act on such a
string rune by rune.
-/

namespace Merge

/-- A Go string, as its sequence of runes. -/
abbrev GoString := List Char

/-- PathInstruction represents a single path instruction (`main.go`, lines 17-20). -/
structure PathInstruction where
  Path : GoString
  Instructions : GoString
  deriving DecidableEq, Repr

/-! ## Library functions of package `strings` and `unicode` -/

/-- Go `unicode.IsSpace`: the Latin-1 space characters
`'\t', '\n', '\v', '\f', '\r', ' ', U+0085, U+00A0` and the other code points
with the Unicode `White_Space` property. -/
def isSpace (c : Char) : Bool :=
  let n := c.toNat
  (0x09 ≤ n && n ≤ 0x0D) || n == 0x20 || n == 0x85 || n == 0xA0 || n == 0x1680 ||
  (0x2000 ≤ n && n ≤ 0x200A) || n == 0x2028 || n == 0x2029 || n == 0x202F ||
  n == 0x205F || n == 0x3000

/-- Go `strings.TrimSpace`: remove all leading and trailing white space. -/
def TrimSpace (s : GoString) : GoString :=
  ((s.dropWhile isSpace).reverse.dropWhile isSpace).reverse

/-- Go `strings.Split(s, sep)` for a one-rune separator: the pieces of `s`
between the occurrences of `sep`; there is always one piece more than there
are separators, so the result is never empty. -/
def Split : GoString → Char → List GoString
  | [], _ => [[]]
  | c :: cs, sep =>
    if c = sep then [] :: Split cs sep
    else
      match Split cs sep with
      | [] => [[c]]
      | p :: ps => (c :: p) :: ps

/-- Go `strings.Join(elems, sep)`. -/
def Join : List GoString → GoString → GoString
  | [], _ => []
  | [e], _ => e
  | e :: f :: es, sep => e ++ sep ++ Join (f :: es) sep

/-- Go `strings.HasPrefix`. -/
def HasPrefix : GoString → GoString → Bool
  | _, [] => true
  | [], _ :: _ => false
  | c :: cs, p :: ps => c == p && HasPrefix cs ps

/-- Go `strings.HasSuffix`. -/
def HasSuffix (s suffix : GoString) : Bool :=
  HasPrefix s.reverse suffix.reverse

/-! ## The regular expression `\*\*/\{([^}]+)\}\*/\*\*` -/

/-- The literal opening `**/{` of the expression. -/
def reOpen : GoString := ['*', '*', '/', '{']

/-- The literal closing `}*/**` of the expression. -/
def reClose : GoString := ['}', '*', '/', '*', '*']

/-- One attempt of the expression `\*\*/\{([^}]+)\}\*/\*\*` at the head of `s`:
the literal `**/{`, the greedy group `[^}]+` (the longest run of runes other
than `}`, which is the only length after which a `}` can follow), and the
literal `}*/**`.  The result is the text of the capture group. -/
def matchAt (s : GoString) : Option GoString :=
  if HasPrefix s reOpen then
    let rest := s.drop reOpen.length
    let group := rest.takeWhile (fun c => c != '}')
    let tail := rest.dropWhile (fun c => c != '}')
    if group ≠ [] ∧ HasPrefix tail reClose then some group else none
  else none

/-- Go `re.FindStringSubmatch(s)` for the expression above: the leftmost
match, as the slice `[whole match, group 1]`, or the nil slice when the
expression matches nowhere in `s`.  The search is not anchored: every start
position is tried, from the left. -/
def FindStringSubmatch : GoString → List GoString
  | [] => []
  | c :: cs =>
    match matchAt (c :: cs) with
    | some group => [reOpen ++ group ++ reClose, group]
    | none => FindStringSubmatch cs

/-! ## The program -/

/-- The loop of `generateFilePattern` (lines 61-66): trim each keyword and
append the non-empty ones, with a trailing `*`, to `fileKeywords`. -/
def fileKeywordsLoop (fileKeywords : List GoString) : List GoString → List GoString
  | [] => fileKeywords
  | keyword :: rest =>
    let keyword := TrimSpace keyword
    if keyword ≠ [] then fileKeywordsLoop (fileKeywords ++ [keyword ++ ['*']]) rest
    else fileKeywordsLoop fileKeywords rest

/-- Embedding of `generateFilePattern` (lines 44-71). -/
def generateFilePattern (folderPattern : GoString) : GoString :=
  let ms := FindStringSubmatch folderPattern
  if ms.length ≠ 2 then folderPattern
  else
    let keywords := Split (ms.getD 1 []) ','
    let fileKeywords := fileKeywordsLoop [] keywords
    ['*', '*', '/', '*', '{'] ++ Join fileKeywords [','] ++ ['}', '*']

/-- The loop of `expandPathInstructions` (lines 77-90), with the slice
`expanded` as accumulator. -/
def expandLoop (expanded : List PathInstruction) :
    List PathInstruction → List PathInstruction
  | [] => expanded
  | instruction :: rest =>
    let expanded := expanded ++ [instruction]
    let filePattern := generateFilePattern instruction.Path
    if filePattern ≠ instruction.Path then
      expandLoop (expanded ++ [{ Path := filePattern,
                                 Instructions := instruction.Instructions }]) rest
    else expandLoop expanded rest

/-- Embedding of `expandPathInstructions` (lines 74-93). -/
def expandPathInstructions (instructions : List PathInstruction) : List PathInstruction :=
  expandLoop [] instructions

/-- The loop of `indentText` (lines 32-38). -/
def indentLoop (indent : GoString) (result : List GoString) : List GoString → List GoString
  | [] => result
  | line :: rest =>
    if TrimSpace line ≠ [] then indentLoop indent (result ++ [indent ++ line]) rest
    else indentLoop indent (result ++ [[]]) rest

/-- Embedding of `indentText` (lines 28-41). -/
def indentText (text indent : GoString) : GoString :=
  let lines := Split text '\n'
  Join (indentLoop indent [] lines) ['\n']

/-! ## The collector -/

/-- The kind of a directory entry that is not a directory, as the type bits of
its `fs.FileMode` tell it: a regular file, a symbolic link, or a special file
(named pipe, socket, device).  `d.IsDir()` is false for all three. -/
inductive EntryKind where
  | regular
  | symlink
  | special
  deriving DecidableEq, Repr

/-- A node of the directory tree under `configsDir`.  An entry that is not a
directory carries its kind and what `os.ReadFile` returns for its path (the
read follows a symbolic link); a directory carries the error of `os.ReadDir`,
if any, and its entries in the order `WalkDir` visits them (sorted by name). -/
inductive FsNode where
  | file (name : GoString) (kind : EntryKind) (read : Except GoString GoString) : FsNode
  | dir (name : GoString) (readDirErr : Option GoString) (entries : List FsNode) : FsNode

/-- The base name of a node, `d.Name()`. -/
def FsNode.name : FsNode → GoString
  | .file name _ _ => name
  | .dir name _ _ => name

/-- One call of the `WalkDir` callback: its arguments `path`, `d` (through
`d.Name()` and `d.IsDir()`) and `err`, and what `os.ReadFile(path)` returns. -/
structure WalkEntry where
  path : GoString
  name : GoString
  isDir : Bool
  err : Option GoString
  read : Except GoString GoString

/-- The calls `filepath.WalkDir` makes on a tree, in order, as long as the
callback returns nil: the node itself, a second call reporting the `ReadDir`
error of a directory, then the entries of the directory, depth first.  The
path of an entry is `filepath.Join(path, d.Name())`; `joinPath` stands for
`filepath.Join`. -/
def walkDir (joinPath : GoString → GoString → GoString) (path : GoString) :
    FsNode → List WalkEntry
  | .file name _ read => [⟨path, name, false, none, read⟩]
  | .dir name readDirErr entries =>
    ⟨path, name, true, none, .error []⟩ ::
      ((match readDirErr with
        | some e => [⟨path, name, true, some e, .error []⟩]
        | none => []) ++
       walkEntries path entries)
where
  /-- The calls for the entries of the directory `path`. -/
  walkEntries (path : GoString) : List FsNode → List WalkEntry
  | [] => []
  | n :: ns => walkDir joinPath (joinPath path n.name) n ++ walkEntries path ns

/-- The suffix `.yaml` tested first by the callback. -/
def yamlSuffix : GoString := ".yaml".toList

/-- The sentinel file name `path_instructions.yaml`. -/
def sentinelName : GoString := "path_instructions.yaml".toList

/-- The callback passed to `filepath.WalkDir` (lines 132-166), with the
captured slice `allInstructions` as explicit state; `unmarshal` stands for
`yaml.Unmarshal` into a `[]PathInstruction`. -/
def walkFn (unmarshal : GoString → Except GoString (List PathInstruction))
    (allInstructions : List PathInstruction) (e : WalkEntry) :
    Except GoString (List PathInstruction) :=
  match e.err with
  | some err => .error err
  | none =>
    if e.isDir || !HasSuffix e.name yamlSuffix then .ok allInstructions
    else if e.name ≠ sentinelName then .ok allInstructions
    else
      match e.read with
      | .error err => .error ("failed to read ".toList ++ e.path ++ ": ".toList ++ err)
      | .ok data =>
        match unmarshal data with
        | .error err => .error ("failed to parse ".toList ++ e.path ++ ": ".toList ++ err)
        | .ok pathInstructions => .ok (allInstructions ++ pathInstructions)

/-- The walk: the callback is applied to the calls in order and the first
error it returns ends the walk. -/
def runWalk (unmarshal : GoString → Except GoString (List PathInstruction))
    (allInstructions : List PathInstruction) :
    List WalkEntry → Except GoString (List PathInstruction)
  | [] => .ok allInstructions
  | e :: es =>
    match walkFn unmarshal allInstructions e with
    | .error err => .error err
    | .ok all => runWalk unmarshal all es

/-- Embedding of `collectPathInstructions` (lines 129-174).  `root` is what
`os.Lstat(configsDir)` finds: an error, or the tree; `joinPath` stands for
`filepath.Join`. -/
def collectPathInstructions (unmarshal : GoString → Except GoString (List PathInstruction))
    (joinPath : GoString → GoString → GoString)
    (configsDir : GoString) (root : Except GoString FsNode) :
    Except GoString (List PathInstruction) :=
  let walked :=
    match root with
    | .error err => walkFn unmarshal [] ⟨configsDir, [], false, some err, .error []⟩
    | .ok tree => runWalk unmarshal [] (walkDir joinPath configsDir tree)
  match walked with
  | .error err => .error ("failed to walk configs directory: ".toList ++ err)
  | .ok all => .ok all

/-! ## Reference definitions, following the words of the specification -/

/-- The keyword list of the derived file pattern, as the specification words
it: split the keyword list on commas, trim white space from each keyword,
discard the keywords that are then empty, append `*` to each remaining one. -/
def specFileKeywords (inner : GoString) : List GoString :=
  (((Split inner ',').map TrimSpace).filter (fun k => decide (k ≠ []))).map
    (fun k => k ++ ['*'])

/-- The file pattern `**/*{` + J + `}*` of the specification, J being the
derived keywords joined with commas. -/
def specFilePattern (inner : GoString) : GoString :=
  ['*', '*', '/', '*', '{'] ++ Join (specFileKeywords inner) [','] ++ ['}', '*']

/-- The derived entry for an instruction: the same instruction text under the
derived file pattern. -/
def derivedEntry (x : PathInstruction) : PathInstruction :=
  { Path := generateFilePattern x.Path, Instructions := x.Instructions }

/-- The block the expansion pass emits for one entry, as the specification
words it: the entry itself, then the derived entry when the expander's output
differs from its input. -/
def specBlock (x : PathInstruction) : List PathInstruction :=
  if generateFilePattern x.Path = x.Path then [x] else [x, derivedEntry x]

/-- The string contains an occurrence of the folder-pattern shape: a
substring `**/{` + X + `}*/**` with X non-empty and free of `}`. -/
def ContainsShape (s : GoString) : Prop :=
  ∃ pre g post, g ≠ [] ∧ '}' ∉ g ∧ s = pre ++ reOpen ++ g ++ reClose ++ post

/-- The folder pattern `**/{` + inner + `}*/**`. -/
def folderPattern (inner : GoString) : GoString :=
  ['*', '*', '/', '{'] ++ inner ++ ['}', '*', '/', '*', '*']

/-- The position in the expanded list of the `i`-th input entry: the length
of the expansion of the entries before it. -/
def originalPos (xs : List PathInstruction) (i : Nat) : Nat :=
  (expandPathInstructions (xs.take i)).length

/-- The line contains a rune that is not white space. -/
def hasNonSpace (line : GoString) : Bool :=
  line.any (fun c => !isSpace c)

/-- One line of the indented text, as the specification words it: the indent
followed by the line when the line has a non-white-space rune, the empty
string when the line is blank. -/
def specIndentLine (indent line : GoString) : GoString :=
  if hasNonSpace line then indent ++ line else []

/-- The string, taken as a whole, is of the exact shape `**/{` + X + `}*/**`
with X non-empty and free of `}`: the expression anchored at both ends. -/
def exactShape (s : GoString) : Bool :=
  match matchAt s with
  | some g => s == reOpen ++ g ++ reClose
  | none => false

/-- The records of one file: what the parser makes of its contents. -/
def fileRecords (unmarshal : GoString → Except GoString (List PathInstruction))
    (read : Except GoString GoString) : List PathInstruction :=
  match read with
  | .error _ => []
  | .ok data =>
    match unmarshal data with
    | .error _ => []
    | .ok records => records

/-- The aggregate as the specification words it: the records of the regular
files whose base name is exactly the sentinel name, in traversal order; a
directory, a file of another name, or an entry that is not a regular file
contributes nothing itself. -/
def specCollect (unmarshal : GoString → Except GoString (List PathInstruction)) :
    FsNode → List PathInstruction
  | .file name kind read =>
    if kind = EntryKind.regular ∧ name = sentinelName then fileRecords unmarshal read else []
  | .dir _ _ entries => specEntries entries
where
  /-- The records under the entries of a directory. -/
  specEntries : List FsNode → List PathInstruction
  | [] => []
  | n :: ns => specCollect unmarshal n ++ specEntries ns

/-- The aggregate over every entry that is not a directory, of whatever kind,
whose base name is exactly the sentinel name, in traversal order. -/
def nonDirCollect (unmarshal : GoString → Except GoString (List PathInstruction)) :
    FsNode → List PathInstruction
  | .file name _ read => if name = sentinelName then fileRecords unmarshal read else []
  | .dir _ _ entries => nonDirEntries entries
where
  /-- The records under the entries of a directory. -/
  nonDirEntries : List FsNode → List PathInstruction
  | [] => []
  | n :: ns => nonDirCollect unmarshal n ++ nonDirEntries ns

/-- Every entry of the tree that bears the sentinel name and is not a
directory is a regular file. -/
def sentinelsRegular : FsNode → Bool
  | .file name kind _ => if name = sentinelName then decide (kind = EntryKind.regular) else true
  | .dir _ _ entries => regularEntries entries
where
  /-- The same for the entries of a directory. -/
  regularEntries : List FsNode → Bool
  | [] => true
  | n :: ns => sentinelsRegular n && regularEntries ns

/-- All reads and parses succeed: every directory is read without error, and
every entry that is not a directory and bears the sentinel name is read and
parsed without error. -/
def allSucceed (unmarshal : GoString → Except GoString (List PathInstruction)) :
    FsNode → Bool
  | .file name _ read =>
    if name = sentinelName then
      match read with
      | .error _ => false
      | .ok data =>
        match unmarshal data with
        | .error _ => false
        | .ok _ => true
    else true
  | .dir _ readDirErr entries => readDirErr.isNone && allEntries entries
where
  /-- The same for the entries of a directory. -/
  allEntries : List FsNode → Bool
  | [] => true
  | n :: ns => allSucceed unmarshal n && allEntries ns

/-! ## The end-to-end scenario of the specification -/

/-- A stand-in for `yaml.Unmarshal` on the two fragment files of the scenario:
the contents `go fragment` hold the folder pattern of `http` and `grpc`, the
contents `js fragment` hold the pattern `**/src/**`, anything else fails to
parse. -/
def scenarioUnmarshal (data : GoString) : Except GoString (List PathInstruction) :=
  if data = "go fragment".toList then
    .ok [{ Path := "**/\x7bhttp,grpc\x7d*/**".toList,
           Instructions := "Review for idiomatic error handling".toList }]
  else if data = "js fragment".toList then
    .ok [{ Path := "**/src/**".toList, Instructions := "Check for unused imports".toList }]
  else .error "cannot unmarshal".toList

/-- What `filepath.Join` returns for a clean path and a plain entry name, as
in the scenario: the two joined by a slash. -/
def scenarioJoin (path name : GoString) : GoString :=
  path ++ ['/'] ++ name

/-- The tree `cfg/` of the scenario, all of regular files, with, beside the
two fragments, a file `other.yaml`, a file whose name merely ends in the
sentinel name, an unreadable file of another name and a directory named as
the sentinel. -/
def scenarioTree : FsNode :=
  .dir "cfg".toList none
    [.dir "go".toList none
        [.file "other.yaml".toList .regular (.ok "not a fragment".toList),
         .file "path_instructions.yaml".toList .regular (.ok "go fragment".toList)],
     .dir "js".toList none
        [.file "my_path_instructions.yaml".toList .regular (.ok "not a fragment".toList),
         .file "path_instructions.yaml".toList .regular (.ok "js fragment".toList)],
     .dir "path_instructions.yaml".toList none
        [.file "unreadable.yaml".toList .regular (.error "permission denied".toList)]]

/-- The scenario tree with the `js` fragment reached through a symbolic link
named as the sentinel instead of a regular file. -/
def symlinkTree : FsNode :=
  .dir "cfg".toList none
    [.dir "go".toList none
        [.file "path_instructions.yaml".toList .regular (.ok "go fragment".toList)],
     .dir "js".toList none
        [.file "path_instructions.yaml".toList .symlink (.ok "js fragment".toList)]]

/-! ## Facts about the library functions -/

theorem Split_exists_cons (s : GoString) (sep : Char) :
    ∃ p ps, Split s sep = p :: ps := by
  induction s with
  | nil => exact ⟨[], [], rfl⟩
  | cons c cs ih =>
    obtain ⟨p, ps, h⟩ := ih
    by_cases hc : c = sep
    · exact ⟨[], Split cs sep, by simp [Split, hc]⟩
    · exact ⟨c :: p, ps, by simp [Split, hc, h]⟩

theorem Split_ne_nil (s : GoString) (sep : Char) : Split s sep ≠ [] := by
  obtain ⟨p, ps, h⟩ := Split_exists_cons s sep
  simp [h]

theorem Split_length_pos (s : GoString) (sep : Char) : 0 < (Split s sep).length :=
  List.length_pos.mpr (Split_ne_nil s sep)

/-- A piece without separator, followed by a separator, is the first piece. -/
theorem Split_append_sep (p rest : GoString) (sep : Char) (hp : sep ∉ p) :
    Split (p ++ sep :: rest) sep = p :: Split rest sep := by
  induction p with
  | nil => simp [Split]
  | cons c cs ih =>
    have hc : c ≠ sep := fun h => hp (by simp [h])
    have hcs : sep ∉ cs := fun h => hp (by simp [h])
    simp [Split, hc, ih hcs]

/-- A string without separator is its own single piece. -/
theorem Split_of_not_mem (p : GoString) (sep : Char) (hp : sep ∉ p) :
    Split p sep = [p] := by
  induction p with
  | nil => simp [Split]
  | cons c cs ih =>
    have hc : c ≠ sep := fun h => hp (by simp [h])
    have hcs : sep ∉ cs := fun h => hp (by simp [h])
    simp [Split, hc, ih hcs]

/-- No piece contains the separator, and every rune of a piece is a rune of
the string. -/
theorem mem_Split (s : GoString) (sep : Char) :
    ∀ p ∈ Split s sep, sep ∉ p ∧ ∀ c ∈ p, c ∈ s := by
  induction s with
  | nil => simp [Split]
  | cons c cs ih =>
    obtain ⟨q, qs, h⟩ := Split_exists_cons cs sep
    rw [h] at ih
    by_cases hc : c = sep
    · intro p hp
      simp only [Split, hc, if_true, h, List.mem_cons] at hp
      rcases hp with rfl | hp
      · simp
      · have := ih p (by simpa using hp)
        exact ⟨this.1, fun x hx => List.mem_cons_of_mem _ (this.2 x hx)⟩
    · intro p hp
      simp only [Split, hc, if_false, h, List.mem_cons] at hp
      rcases hp with rfl | hp
      · have := ih q (by simp)
        refine ⟨?_, ?_⟩
        · simp only [List.mem_cons, not_or]
          exact ⟨fun e => hc e.symm, this.1⟩
        · intro x hx
          rcases List.mem_cons.mp hx with rfl | hx
          · simp
          · exact List.mem_cons_of_mem _ (this.2 x hx)
      · have := ih p (List.mem_cons_of_mem _ hp)
        exact ⟨this.1, fun x hx => List.mem_cons_of_mem _ (this.2 x hx)⟩

theorem Join_cons_cons (e f : GoString) (es : List GoString) (sep : GoString) :
    Join (e :: f :: es) sep = e ++ sep ++ Join (f :: es) sep := rfl

/-- Splitting a joined list gives the list back, when no element contains
the separator and the list is not empty. -/
theorem Split_Join (l : List GoString) (sep : Char) (hne : l ≠ [])
    (hl : ∀ p ∈ l, sep ∉ p) : Split (Join l [sep]) sep = l := by
  induction l with
  | nil => exact absurd rfl hne
  | cons e es ih =>
    cases es with
    | nil => simpa [Join] using Split_of_not_mem e sep (hl e (by simp))
    | cons f fs =>
      rw [Join_cons_cons, List.append_assoc, List.singleton_append,
        Split_append_sep _ _ _ (hl e (by simp)),
        ih (by simp) (fun p hp => hl p (List.mem_cons_of_mem _ hp))]

/-- Every rune of a joined string comes from an element or the separator. -/
theorem mem_Join (l : List GoString) (sep : GoString) (c : Char) (h : c ∈ Join l sep) :
    c ∈ sep ∨ ∃ p ∈ l, c ∈ p := by
  induction l with
  | nil => simp [Join] at h
  | cons e es ih =>
    cases es with
    | nil => exact Or.inr ⟨e, by simp, by simpa [Join] using h⟩
    | cons f fs =>
      rw [Join_cons_cons, List.mem_append, List.mem_append] at h
      rcases h with (h | h) | h
      · exact Or.inr ⟨e, by simp, h⟩
      · exact Or.inl h
      · rcases ih h with h | ⟨p, hp, hc⟩
        · exact Or.inl h
        · exact Or.inr ⟨p, List.mem_cons_of_mem _ hp, hc⟩

theorem TrimSpace_subset (s : GoString) (c : Char) (h : c ∈ TrimSpace s) : c ∈ s := by
  unfold TrimSpace at h
  rw [List.mem_reverse] at h
  have h1 := (List.dropWhile_sublist isSpace).subset h
  rw [List.mem_reverse] at h1
  exact (List.dropWhile_sublist isSpace).subset h1

/-- The trimmed string is empty exactly when the string is all white space. -/
theorem TrimSpace_eq_nil_iff (s : GoString) :
    TrimSpace s = [] ↔ ∀ c ∈ s, isSpace c = true := by
  unfold TrimSpace
  rw [List.reverse_eq_nil_iff, List.dropWhile_eq_nil_iff]
  constructor
  · intro h
    by_contra hcon
    have hne : s.dropWhile isSpace ≠ [] := by
      rw [Ne, List.dropWhile_eq_nil_iff]; exact hcon
    have hhead := List.head_dropWhile_not isSpace s hne
    have := h _ (List.mem_reverse.mpr (List.head_mem hne))
    rw [this] at hhead
    exact Bool.noConfusion hhead
  · intro h x hx
    rw [List.mem_reverse] at hx
    exact h x ((List.dropWhile_sublist isSpace).subset hx)

theorem HasPrefix_iff (s p : GoString) : HasPrefix s p = true ↔ ∃ r, s = p ++ r := by
  induction p generalizing s with
  | nil => simp [HasPrefix]
  | cons c cs ih =>
    cases s with
    | nil => simp [HasPrefix]
    | cons d ds =>
      simp only [HasPrefix, Bool.and_eq_true, beq_iff_eq, ih, List.cons_append,
        List.cons.injEq]
      constructor
      · rintro ⟨rfl, r, rfl⟩; exact ⟨r, rfl, rfl⟩
      · rintro ⟨r, rfl, rfl⟩; exact ⟨rfl, r, rfl⟩

/-! ## Facts about the regular expression -/

/-- What one attempt of the expression accepts: the head of the string is
`**/{`, a non-empty group free of `}`, and `}*/**`. -/
theorem matchAt_eq_some_iff (s g : GoString) :
    matchAt s = some g ↔
      g ≠ [] ∧ '}' ∉ g ∧ ∃ post, s = reOpen ++ g ++ reClose ++ post := by
  unfold matchAt
  constructor
  · intro h
    split at h
    · rename_i hpre
      obtain ⟨r, rfl⟩ := (HasPrefix_iff _ _).mp hpre
      simp only [List.drop_left] at h
      split at h
      · rename_i hcond
        obtain ⟨hne, htail⟩ := hcond
        obtain ⟨post, hpost⟩ := (HasPrefix_iff _ _).mp htail
        have hg : List.takeWhile (fun c => c != '}') r = g := by simpa using h
        refine ⟨hg ▸ hne, ?_, post, ?_⟩
        · intro hmem
          rw [← hg] at hmem
          have := List.mem_takeWhile_imp hmem
          simp at this
        · have := List.takeWhile_append_dropWhile (fun c => c != '}') r
          rw [hpost, hg] at this
          rw [← this]; simp [List.append_assoc]
      · exact Option.noConfusion h
    · exact Option.noConfusion h
  · rintro ⟨hne, hnot, post, rfl⟩
    have hpre : HasPrefix (reOpen ++ g ++ reClose ++ post) reOpen = true :=
      (HasPrefix_iff _ _).mpr ⟨g ++ reClose ++ post, by simp [List.append_assoc]⟩
    have hall : ∀ a ∈ g, (fun c : Char => c != '}') a = true := by
      intro a ha
      have : a ≠ '}' := fun e => hnot (e ▸ ha)
      simpa using this
    have hdrop : List.drop reOpen.length (reOpen ++ g ++ reClose ++ post)
        = g ++ (reClose ++ post) := by
      rw [List.append_assoc, List.append_assoc, List.drop_left]
    have htake : List.takeWhile (fun c => c != '}') (g ++ (reClose ++ post)) = g := by
      rw [List.takeWhile_append_of_pos hall]; simp [reClose]
    have hdw : List.dropWhile (fun c => c != '}') (g ++ (reClose ++ post))
        = reClose ++ post := by
      rw [List.dropWhile_append_of_pos hall]; simp [reClose]
    rw [if_pos hpre]
    simp only [hdrop, htake, hdw]
    rw [if_pos ⟨hne, (HasPrefix_iff _ _).mpr ⟨post, rfl⟩⟩]

/-- The search finds nothing exactly when the shape occurs nowhere. -/
theorem FindStringSubmatch_eq_nil_iff (s : GoString) :
    FindStringSubmatch s = [] ↔ ¬ ContainsShape s := by
  induction s with
  | nil =>
    simp only [FindStringSubmatch, true_iff]
    rintro ⟨pre, g, post, -, -, h⟩
    have := congrArg List.length h
    simp [reOpen] at this
    omega
  | cons c cs ih =>
    simp only [FindStringSubmatch]
    cases hm : matchAt (c :: cs) with
    | some g =>
      simp only [List.cons_ne_nil, false_iff, not_not, reduceCtorEq]
      obtain ⟨hne, hnot, post, hs⟩ := (matchAt_eq_some_iff _ _).mp hm
      exact ⟨[], g, post, hne, hnot, by simpa using hs⟩
    | none =>
      simp only [ih]
      apply not_congr
      constructor
      · rintro ⟨pre, g, post, hne, hnot, h⟩
        exact ⟨c :: pre, g, post, hne, hnot, by simp [h]⟩
      · rintro ⟨pre, g, post, hne, hnot, h⟩
        cases pre with
        | nil =>
          have : matchAt (c :: cs) = some g :=
            (matchAt_eq_some_iff _ _).mpr ⟨hne, hnot, post, by simpa using h⟩
          rw [hm] at this
          exact Option.noConfusion this
        | cons d ds =>
          simp only [List.cons_append, List.cons.injEq] at h
          exact ⟨ds, g, post, hne, hnot, h.2⟩

/-- A successful search returns the two-element slice of the leftmost
occurrence: the whole match and its group. -/
theorem FindStringSubmatch_cases (s : GoString) :
    FindStringSubmatch s = [] ∨
      ∃ pre g post, g ≠ [] ∧ '}' ∉ g ∧ s = pre ++ reOpen ++ g ++ reClose ++ post ∧
        FindStringSubmatch s = [reOpen ++ g ++ reClose, g] := by
  induction s with
  | nil => exact Or.inl rfl
  | cons c cs ih =>
    simp only [FindStringSubmatch]
    cases hm : matchAt (c :: cs) with
    | some g =>
      obtain ⟨hne, hnot, post, hs⟩ := (matchAt_eq_some_iff _ _).mp hm
      exact Or.inr ⟨[], g, post, hne, hnot, by simpa using hs, rfl⟩
    | none =>
      rcases ih with h | ⟨pre, g, post, hne, hnot, hs, h⟩
      · exact Or.inl h
      · exact Or.inr ⟨c :: pre, g, post, hne, hnot, by simp [hs], h⟩

/-- A string that begins with the shape is matched at its first rune. -/
theorem FindStringSubmatch_of_head (g post : GoString) (hne : g ≠ []) (hnot : '}' ∉ g) :
    FindStringSubmatch (reOpen ++ g ++ reClose ++ post) = [reOpen ++ g ++ reClose, g] := by
  have hm : matchAt (reOpen ++ g ++ reClose ++ post) = some g :=
    (matchAt_eq_some_iff _ _).mpr ⟨hne, hnot, post, rfl⟩
  have hc : reOpen ++ g ++ reClose ++ post = '*' :: (['*', '/', '{'] ++ g ++ reClose ++ post) := by
    simp [reOpen]
  rw [hc] at hm ⊢
  simp only [FindStringSubmatch, hm]

/-- Among the occurrences of the shape, the search returns the leftmost. -/
theorem FindStringSubmatch_leftmost (s : GoString) (h : ContainsShape s) :
    ∃ pre g post, g ≠ [] ∧ '}' ∉ g ∧ s = pre ++ reOpen ++ g ++ reClose ++ post ∧
      (∀ pre2 g2 post2, g2 ≠ [] → '}' ∉ g2 →
        s = pre2 ++ reOpen ++ g2 ++ reClose ++ post2 → pre.length ≤ pre2.length) ∧
      FindStringSubmatch s = [reOpen ++ g ++ reClose, g] := by
  induction s with
  | nil =>
    exact absurd h ((FindStringSubmatch_eq_nil_iff []).mp rfl)
  | cons c cs ih =>
    simp only [FindStringSubmatch]
    cases hm : matchAt (c :: cs) with
    | some g =>
      obtain ⟨hne, hnot, post, hs⟩ := (matchAt_eq_some_iff _ _).mp hm
      exact ⟨[], g, post, hne, hnot, by simpa using hs, fun _ _ _ _ _ _ => Nat.zero_le _, rfl⟩
    | none =>
      have hcs : ContainsShape cs := by
        obtain ⟨pre, g, post, hne, hnot, hs⟩ := h
        cases pre with
        | nil =>
          have : matchAt (c :: cs) = some g :=
            (matchAt_eq_some_iff _ _).mpr ⟨hne, hnot, post, by simpa using hs⟩
          rw [hm] at this
          exact Option.noConfusion this
        | cons d ds =>
          simp only [List.cons_append, List.cons.injEq] at hs
          exact ⟨ds, g, post, hne, hnot, hs.2⟩
      obtain ⟨pre, g, post, hne, hnot, hs, hmin, hf⟩ := ih hcs
      refine ⟨c :: pre, g, post, hne, hnot, by simp [hs], ?_, hf⟩
      intro pre2 g2 post2 hne2 hnot2 hs2
      cases pre2 with
      | nil =>
        have : matchAt (c :: cs) = some g2 :=
          (matchAt_eq_some_iff _ _).mpr ⟨hne2, hnot2, post2, by simpa using hs2⟩
        rw [hm] at this
        exact Option.noConfusion this
      | cons d ds =>
        simp only [List.cons_append, List.cons.injEq] at hs2
        have := hmin ds g2 post2 hne2 hnot2 hs2.2
        simp only [List.length_cons]
        omega

/-! ## Facts about `generateFilePattern` -/

/-- The keyword loop computes the map-filter-map pipeline. -/
theorem fileKeywordsLoop_eq (acc ks : List GoString) :
    fileKeywordsLoop acc ks =
      acc ++ (((ks.map TrimSpace).filter (fun k => decide (k ≠ []))).map
        (fun k => k ++ ['*'])) := by
  induction ks generalizing acc with
  | nil => simp [fileKeywordsLoop]
  | cons k ks ih =>
    by_cases hk : TrimSpace k = []
    · simp [fileKeywordsLoop, hk, ih]
    · simp [fileKeywordsLoop, hk, ih]

theorem generateFilePattern_of_nil (s : GoString) (h : FindStringSubmatch s = []) :
    generateFilePattern s = s := by
  simp [generateFilePattern, h]

theorem generateFilePattern_of_match (s w g : GoString)
    (h : FindStringSubmatch s = [w, g]) :
    generateFilePattern s = specFilePattern g := by
  simp [generateFilePattern, h, specFilePattern, specFileKeywords, fileKeywordsLoop_eq]

/-- The derived keywords of a group free of `}` are free of `}`. -/
theorem not_mem_Join_specFileKeywords (g : GoString) (hnot : '}' ∉ g) :
    '}' ∉ Join (specFileKeywords g) [','] := by
  intro h
  rcases mem_Join _ _ _ h with h | ⟨p, hp, hc⟩
  · simp at h
  · simp only [specFileKeywords, List.mem_map, List.mem_filter] at hp
    obtain ⟨k, ⟨⟨q, hq, rfl⟩, -⟩, rfl⟩ := hp
    rcases List.mem_append.mp hc with hc | hc
    · exact hnot ((mem_Split g ',' q hq).2 _ (TrimSpace_subset _ _ hc))
    · simp at hc

/-- A file pattern `**/*{` + J + `}*` with J free of `}` contains no
occurrence of the folder-pattern shape: its only `}` is followed by one rune. -/
theorem not_ContainsShape_filePattern (J : GoString) (hJ : '}' ∉ J) :
    ¬ ContainsShape (['*', '*', '/', '*', '{'] ++ J ++ ['}', '*']) := by
  rintro ⟨pre, g, post, -, -, h⟩
  have hA : '}' ∉ (['*', '*', '/', '*', '{'] ++ J) := by
    simp only [List.mem_append, not_or]
    exact ⟨by decide, hJ⟩
  have h1 : (['*', '*', '/', '*', '{'] ++ J) ++ ('}' :: ['*'])
      = (pre ++ reOpen ++ g) ++ ('}' :: (['*', '/', '*', '*'] ++ post)) := by
    rw [h]; simp [reClose, List.append_assoc]
  rcases List.append_eq_append_iff.mp h1 with ⟨a, -, ha⟩ | ⟨c, hc, hc2⟩
  · cases a with
    | nil =>
      have := congrArg List.length ha
      simp at this
    | cons d ds =>
      simp only [List.cons_append, List.cons.injEq] at ha
      have : '}' ∈ ['*'] := by rw [ha.2]; simp
      simp at this
  · cases c with
    | nil =>
      have := congrArg List.length hc2
      simp at this
    | cons d ds =>
      simp only [List.cons_append, List.cons.injEq] at hc2
      apply hA
      rw [hc, ← hc2.1]
      simp

/-- The output of `generateFilePattern` is never itself recognised. -/
theorem FindStringSubmatch_generateFilePattern (s : GoString) :
    FindStringSubmatch (generateFilePattern s) = [] := by
  rcases FindStringSubmatch_cases s with h | ⟨pre, g, post, -, hnot, -, h⟩
  · rw [generateFilePattern_of_nil s h]; exact h
  · rw [generateFilePattern_of_match s _ g h, FindStringSubmatch_eq_nil_iff]
    exact not_ContainsShape_filePattern _ (not_mem_Join_specFileKeywords g hnot)

/-- The expander returns its input exactly when the search finds nothing. -/
theorem generateFilePattern_eq_self_iff (s : GoString) :
    generateFilePattern s = s ↔ FindStringSubmatch s = [] := by
  constructor
  · intro h
    have := FindStringSubmatch_generateFilePattern s
    rwa [h] at this
  · exact generateFilePattern_of_nil s

theorem generateFilePattern_folderPattern (inner : GoString) (hne : inner ≠ [])
    (hnot : '}' ∉ inner) :
    generateFilePattern (folderPattern inner) = specFilePattern inner := by
  have h := FindStringSubmatch_of_head inner [] hne hnot
  rw [List.append_nil] at h
  exact generateFilePattern_of_match _ _ _ h

/-! ## Facts about `expandPathInstructions` -/

theorem expandLoop_eq (acc xs : List PathInstruction) :
    expandLoop acc xs = acc ++ xs.flatMap specBlock := by
  induction xs generalizing acc with
  | nil => simp [expandLoop]
  | cons x xs ih =>
    by_cases hx : generateFilePattern x.Path = x.Path
    · simp [expandLoop, hx, ih, specBlock]
    · simp [expandLoop, hx, ih, specBlock, derivedEntry]

theorem expandPathInstructions_eq_flatMap (xs : List PathInstruction) :
    expandPathInstructions xs = xs.flatMap specBlock := by
  simp [expandPathInstructions, expandLoop_eq]

theorem expandPathInstructions_append (xs ys : List PathInstruction) :
    expandPathInstructions (xs ++ ys) =
      expandPathInstructions xs ++ expandPathInstructions ys := by
  simp [expandPathInstructions_eq_flatMap, List.flatMap_append]

theorem expandPathInstructions_singleton (x : PathInstruction) :
    expandPathInstructions [x] = specBlock x := by
  simp [expandPathInstructions_eq_flatMap]

theorem specBlock_cases (x : PathInstruction) :
    (generateFilePattern x.Path = x.Path ∧ specBlock x = [x]) ∨
      (generateFilePattern x.Path ≠ x.Path ∧ specBlock x = [x, derivedEntry x]) := by
  by_cases hx : generateFilePattern x.Path = x.Path
  · exact Or.inl ⟨hx, by simp [specBlock, hx]⟩
  · exact Or.inr ⟨hx, by simp [specBlock, hx]⟩

theorem length_le_expandPathInstructions (xs : List PathInstruction) :
    xs.length ≤ (expandPathInstructions xs).length := by
  induction xs with
  | nil => simp
  | cons x xs ih =>
    have h := expandPathInstructions_append [x] xs
    rw [List.singleton_append] at h
    rw [h, expandPathInstructions_singleton, List.length_append]
    rcases specBlock_cases x with ⟨-, hb⟩ | ⟨-, hb⟩ <;> rw [hb] <;> simp <;> omega

theorem expandPathInstructions_length_le (xs : List PathInstruction) :
    (expandPathInstructions xs).length ≤ 2 * xs.length := by
  induction xs with
  | nil => simp [expandPathInstructions, expandLoop]
  | cons x xs ih =>
    have h := expandPathInstructions_append [x] xs
    rw [List.singleton_append] at h
    rw [h, expandPathInstructions_singleton, List.length_append]
    rcases specBlock_cases x with ⟨-, hb⟩ | ⟨-, hb⟩ <;> rw [hb] <;> simp <;> omega

theorem sublist_expandPathInstructions (xs : List PathInstruction) :
    xs.Sublist (expandPathInstructions xs) := by
  induction xs with
  | nil => simp
  | cons x xs ih =>
    have h := expandPathInstructions_append [x] xs
    rw [List.singleton_append] at h
    rw [h, expandPathInstructions_singleton]
    rcases specBlock_cases x with ⟨-, hb⟩ | ⟨-, hb⟩ <;> rw [hb]
    · exact List.Sublist.cons₂ x ih
    · exact List.Sublist.cons₂ x (List.Sublist.cons _ ih)

theorem originalPos_lt (xs : List PathInstruction) (i j : Nat) (hij : i < j)
    (hj : j ≤ xs.length) : originalPos xs i < originalPos xs j := by
  unfold originalPos
  have hsplit : xs.take j = xs.take i ++ (xs.take j).drop i := by
    have := List.take_append_drop i (xs.take j)
    rw [List.take_take, Nat.min_eq_left (Nat.le_of_lt hij)] at this
    exact this.symm
  rw [hsplit, expandPathInstructions_append, List.length_append]
  have hlen : 0 < ((xs.take j).drop i).length := by
    rw [List.length_drop, List.length_take]; omega
  have := length_le_expandPathInstructions ((xs.take j).drop i)
  omega

theorem getElem?_originalPos (xs : List PathInstruction) (i : Nat) (x : PathInstruction)
    (hx : xs[i]? = some x) :
    (expandPathInstructions xs)[originalPos xs i]? = some x := by
  obtain ⟨hi, rfl⟩ := List.getElem?_eq_some_iff.mp hx
  have hsplit : xs = xs.take i ++ ([xs[i]] ++ xs.drop (i + 1)) := by
    rw [List.singleton_append, List.getElem_cons_drop, List.take_append_drop]
  have hE : expandPathInstructions xs =
      expandPathInstructions (xs.take i) ++
        (specBlock xs[i] ++ expandPathInstructions (xs.drop (i + 1))) := by
    conv_lhs => rw [hsplit]
    rw [expandPathInstructions_append, expandPathInstructions_append,
      expandPathInstructions_singleton]
  rw [hE]
  unfold originalPos
  rw [List.getElem?_append_right (Nat.le_refl _), Nat.sub_self]
  rcases specBlock_cases xs[i] with ⟨-, hb⟩ | ⟨-, hb⟩ <;> rw [hb] <;> simp

/-- Every position of the expanded list holds an input entry, or stands just
after the input entry whose derived entry it holds. -/
theorem expandPathInstructions_cover (xs : List PathInstruction) :
    ∀ j, j < (expandPathInstructions xs).length →
      (∃ i, i < xs.length ∧ originalPos xs i = j) ∨
      (∃ i x, xs[i]? = some x ∧ originalPos xs i + 1 = j ∧
        generateFilePattern x.Path ≠ x.Path ∧
        (expandPathInstructions xs)[j]? = some (derivedEntry x)) := by
  induction xs using List.reverseRecOn with
  | nil => intro j hj; simp [expandPathInstructions, expandLoop] at hj
  | append_singleton l a ih =>
    intro j hj
    have hpos : ∀ i, i ≤ l.length → originalPos (l ++ [a]) i = originalPos l i := by
      intro i hi
      unfold originalPos
      rw [List.take_append_of_le_length hi]
    rw [expandPathInstructions_append, expandPathInstructions_singleton] at hj ⊢
    by_cases hjl : j < (expandPathInstructions l).length
    · rcases ih j hjl with ⟨i, hi, hp⟩ | ⟨i, x, hx, hp, hne, hd⟩
      · exact Or.inl ⟨i, by simp; omega, by rw [hpos i (Nat.le_of_lt hi)]; exact hp⟩
      · have hi : i < l.length := (List.getElem?_eq_some_iff.mp hx).1
        refine Or.inr ⟨i, x, ?_, ?_, hne, ?_⟩
        · rw [List.getElem?_append_left hi]; exact hx
        · rw [hpos i (Nat.le_of_lt hi)]; exact hp
        · rw [List.getElem?_append_left hjl]; exact hd
    · have hlast : originalPos (l ++ [a]) l.length = (expandPathInstructions l).length := by
        rw [hpos _ (Nat.le_refl _)]; unfold originalPos; rw [List.take_length]
      rw [List.length_append] at hj
      rcases specBlock_cases a with ⟨-, hb⟩ | ⟨hne, hb⟩
      · rw [hb] at hj
        simp at hj
        exact Or.inl ⟨l.length, by simp, by rw [hlast]; omega⟩
      · rw [hb] at hj ⊢
        simp at hj
        by_cases hje : j = (expandPathInstructions l).length
        · exact Or.inl ⟨l.length, by simp, by rw [hlast]; omega⟩
        · have hj1 : j = (expandPathInstructions l).length + 1 := by omega
          refine Or.inr ⟨l.length, a, by simp, by rw [hlast]; omega, hne, ?_⟩
          rw [List.getElem?_append_right (by omega), hj1]
          simp

/-! ## Further facts about the shape -/

theorem exactShape_iff (s : GoString) :
    exactShape s = true ↔ ∃ g, g ≠ [] ∧ '}' ∉ g ∧ s = reOpen ++ g ++ reClose := by
  unfold exactShape
  constructor
  · intro h
    cases hm : matchAt s with
    | none => rw [hm] at h; exact Bool.noConfusion h
    | some g =>
      rw [hm] at h
      obtain ⟨hne, hnot, -, -⟩ := (matchAt_eq_some_iff s g).mp hm
      exact ⟨g, hne, hnot, by simpa using h⟩
  · rintro ⟨g, hne, hnot, rfl⟩
    have : matchAt (reOpen ++ g ++ reClose) = some g :=
      (matchAt_eq_some_iff _ _).mpr ⟨hne, hnot, [], by simp⟩
    rw [this]; simp

/-- A string without `}` contains no occurrence of the shape. -/
theorem not_ContainsShape_of_not_mem (s : GoString) (h : '}' ∉ s) : ¬ ContainsShape s := by
  rintro ⟨pre, g, post, -, -, rfl⟩
  apply h
  simp [reClose]

/-- An occurrence of the shape in a string either closes at the first `}` of
the string or lies wholly after it. -/
theorem ContainsShape_first_close (u w : GoString) (hu : '}' ∉ u)
    (h : ContainsShape (u ++ '}' :: w)) :
    (HasPrefix w ['*', '/', '*', '*'] = true ∧ ∃ pre g, g ≠ [] ∧ u = pre ++ reOpen ++ g) ∨
      ContainsShape w := by
  obtain ⟨pre, g, post, hne, hnot, hs⟩ := h
  have h1 : u ++ '}' :: w = (pre ++ reOpen ++ g) ++ ('}' :: (['*', '/', '*', '*'] ++ post)) := by
    rw [hs]; simp [reClose, List.append_assoc]
  have hOG : '}' ∉ reOpen ++ g := by
    simp only [List.mem_append, not_or]
    exact ⟨by decide, hnot⟩
  rcases List.append_eq_append_iff.mp h1 with ⟨a, ha1, ha2⟩ | ⟨c, hc1, hc2⟩
  · cases a with
    | nil =>
      simp only [List.nil_append, List.cons.injEq, true_and] at ha2
      simp only [List.append_nil] at ha1
      exact Or.inl ⟨(HasPrefix_iff _ _).mpr ⟨post, ha2⟩, pre, g, hne, ha1.symm⟩
    | cons d ds =>
      simp only [List.cons_append, List.cons.injEq] at ha2
      obtain ⟨hd, hw⟩ := ha2
      subst hd
      right
      have h2 : pre ++ (reOpen ++ g) = (u ++ ['}']) ++ ds := by
        rw [← List.append_assoc, ha1]; simp
      rcases List.append_eq_append_iff.mp h2 with ⟨x, hx1, hx2⟩ | ⟨y, hy1, hy2⟩
      · cases x with
        | nil =>
          simp only [List.nil_append] at hx2
          exact ⟨[], g, post, hne, hnot, by rw [hw, ← hx2]; simp [reClose]⟩
        | cons e es =>
          exfalso
          apply hOG
          have hmem : '}' ∈ (e :: es) := by
            have hl : (u ++ ['}']).getLast? = (pre ++ (e :: es)).getLast? := by rw [hx1]
            rw [List.getLast?_append_of_ne_nil _ (by simp),
              List.getLast?_append_of_ne_nil _ (by simp)] at hl
            simp only [List.getLast?_singleton] at hl
            exact List.mem_of_getLast?_eq_some hl.symm
          rw [hx2]
          exact List.mem_append_left _ hmem
      · exact ⟨y, g, post, hne, hnot, by rw [hw, hy2]; simp [reClose, List.append_assoc]⟩
  · cases c with
    | nil =>
      simp only [List.nil_append, List.cons.injEq, true_and] at hc2
      simp only [List.append_nil] at hc1
      exact Or.inl ⟨(HasPrefix_iff _ _).mpr ⟨post, hc2.symm⟩, pre, g, hne, hc1⟩
    | cons d ds =>
      exfalso
      simp only [List.cons_append, List.cons.injEq] at hc2
      apply hu
      rw [hc1, ← hc2.1]
      simp

/-- A string without opening brace contains no occurrence of the shape. -/
theorem not_ContainsShape_of_no_open (s : GoString) (h : '{' ∉ s) : ¬ ContainsShape s := by
  rintro ⟨pre, g, post, -, -, rfl⟩
  apply h
  simp [reOpen]

/-- A keyword list that encloses a complete nested brace group is not
recognised. -/
theorem not_ContainsShape_nested (a b c : GoString)
    (ha : '}' ∉ a) (hb : '}' ∉ b) (hc1 : '{' ∉ c)
    (hc : HasPrefix c ['*', '/', '*', '*'] = false) :
    ¬ ContainsShape (['*', '*', '/', '{'] ++ a ++ ['{'] ++ b ++ ['}'] ++ c ++
      ['}', '*', '/', '*', '*']) := by
  intro h
  have hre : ['*', '*', '/', '{'] ++ a ++ ['{'] ++ b ++ ['}'] ++ c ++ ['}', '*', '/', '*', '*']
      = (['*', '*', '/', '{'] ++ a ++ ['{'] ++ b) ++ '}' :: (c ++ '}' :: ['*', '/', '*', '*']) := by
    simp [List.append_assoc]
  rw [hre] at h
  have hu : '}' ∉ (['*', '*', '/', '{'] ++ a ++ ['{'] ++ b) := by
    simp only [List.mem_append, not_or]
    exact ⟨⟨⟨by decide, ha⟩, by decide⟩, hb⟩
  rcases ContainsShape_first_close _ _ hu h with ⟨hp, -⟩ | h2
  · obtain ⟨r, hr⟩ := (HasPrefix_iff _ _).mp hp
    have hcp : HasPrefix c ['*', '/', '*', '*'] = true := by
      rw [HasPrefix_iff]
      rcases List.append_eq_append_iff.mp hr with ⟨x, hx, hx2⟩ | ⟨y, hy, -⟩
      · cases x with
        | nil => exact ⟨[], by simpa using hx.symm⟩
        | cons d ds =>
          exfalso
          simp only [List.cons_append, List.cons.injEq] at hx2
          have : '}' ∈ ['*', '/', '*', '*'] := by rw [hx, hx2.1]; simp
          simp at this
      · exact ⟨y, hy⟩
    rw [hc] at hcp
    exact Bool.noConfusion hcp
  · refine not_ContainsShape_of_no_open _ ?_ h2
    simp only [List.mem_append, not_or]
    exact ⟨hc1, by decide⟩

/-! ## Facts about `indentText` -/

theorem TrimSpace_ne_nil_iff (line : GoString) :
    TrimSpace line ≠ [] ↔ hasNonSpace line = true := by
  rw [Ne, TrimSpace_eq_nil_iff]
  simp [hasNonSpace]

theorem indentLoop_eq (indent : GoString) (acc lines : List GoString) :
    indentLoop indent acc lines = acc ++ lines.map (specIndentLine indent) := by
  induction lines generalizing acc with
  | nil => simp [indentLoop]
  | cons l ls ih =>
    by_cases hl : hasNonSpace l = true
    · have : TrimSpace l ≠ [] := (TrimSpace_ne_nil_iff l).mpr hl
      simp [indentLoop, this, ih, specIndentLine, hl]
    · have : ¬ TrimSpace l ≠ [] := fun h => hl ((TrimSpace_ne_nil_iff l).mp h)
      simp only [ne_eq, not_not] at this
      simp [indentLoop, this, ih, specIndentLine, hl]

theorem indentText_eq (text indent : GoString) :
    indentText text indent = Join ((Split text '\n').map (specIndentLine indent)) ['\n'] := by
  simp [indentText, indentLoop_eq]

/-- With an indent free of newlines, the lines of the indented text are the
indented lines of the text. -/
theorem Split_indentText (text indent : GoString) (hi : '\n' ∉ indent) :
    Split (indentText text indent) '\n' = (Split text '\n').map (specIndentLine indent) := by
  rw [indentText_eq]
  apply Split_Join
  · simpa using Split_ne_nil text '\n'
  · intro p hp
    obtain ⟨l, hl, rfl⟩ := List.mem_map.mp hp
    unfold specIndentLine
    split
    · simp only [List.mem_append, not_or]
      exact ⟨hi, (mem_Split text '\n' l hl).1⟩
    · simp

/-! ## Keyword lists of commas and white space -/

theorem specFileKeywords_eq_nil (inner : GoString)
    (h : ∀ c ∈ inner, c = ',' ∨ isSpace c = true) : specFileKeywords inner = [] := by
  unfold specFileKeywords
  rw [List.map_eq_nil_iff, List.filter_eq_nil_iff]
  intro k hk
  obtain ⟨p, hp, rfl⟩ := List.mem_map.mp hk
  have hps := mem_Split inner ',' p hp
  have : TrimSpace p = [] := by
    rw [TrimSpace_eq_nil_iff]
    intro c hc
    rcases h c (hps.2 c hc) with rfl | hsp
    · exact absurd hc hps.1
    · exact hsp
  simp [this]

theorem not_mem_of_commas_spaces (inner : GoString)
    (h : ∀ c ∈ inner, c = ',' ∨ isSpace c = true) : '}' ∉ inner := by
  intro hmem
  rcases h _ hmem with h1 | h1
  · exact absurd h1 (by decide)
  · exact absurd h1 (by decide)

/-! ## Facts about the collector -/

theorem runWalk_append (u : GoString → Except GoString (List PathInstruction))
    (acc mid : List PathInstruction) (es fs : List WalkEntry)
    (h : runWalk u acc es = .ok mid) :
    runWalk u acc (es ++ fs) = runWalk u mid fs := by
  induction es generalizing acc with
  | nil => simp only [runWalk] at h; cases h; rfl
  | cons e es ih =>
    simp only [List.cons_append, runWalk] at h ⊢
    cases hw : walkFn u acc e with
    | error err => rw [hw] at h; exact Except.noConfusion h
    | ok all => rw [hw] at h; simp only; exact ih all h

theorem HasSuffix_sentinelName : HasSuffix sentinelName yamlSuffix = true := by decide

theorem runWalk_walkDir (u : GoString → Except GoString (List PathInstruction))
    (jp : GoString → GoString → GoString) :
    ∀ (t : FsNode) (path : GoString) (acc : List PathInstruction),
      allSucceed u t = true →
      runWalk u acc (walkDir jp path t) = .ok (acc ++ nonDirCollect u t)
  | .file name kind read, path, acc, h => by
    simp only [walkDir, runWalk, walkFn, nonDirCollect]
    by_cases hn : name = sentinelName
    · subst hn
      simp only [allSucceed, if_true] at h
      cases read with
      | error e => simp at h
      | ok data =>
        cases hu : u data with
        | error e => simp [hu] at h
        | ok recs => simp [HasSuffix_sentinelName, hu, fileRecords]
    · by_cases hs : HasSuffix name yamlSuffix = true <;> simp [hn, hs]
  | .dir name rerr entries, path, acc, h => by
    simp only [allSucceed, Bool.and_eq_true, Option.isNone_iff_eq_none] at h
    obtain ⟨hr, he⟩ := h
    subst hr
    simp only [walkDir, runWalk, walkFn, nonDirCollect, List.nil_append, Bool.true_or, if_true]
    exact runWalk_walkEntries u jp entries path acc he
where
  runWalk_walkEntries (u : GoString → Except GoString (List PathInstruction))
    (jp : GoString → GoString → GoString) :
    ∀ (ns : List FsNode) (path : GoString) (acc : List PathInstruction),
      allSucceed.allEntries u ns = true →
      runWalk u acc (walkDir.walkEntries jp path ns) =
        .ok (acc ++ nonDirCollect.nonDirEntries u ns)
  | [], path, acc, _ => by simp [walkDir.walkEntries, runWalk, nonDirCollect.nonDirEntries]
  | n :: ns, path, acc, h => by
    simp only [allSucceed.allEntries, Bool.and_eq_true] at h
    simp only [walkDir.walkEntries, nonDirCollect.nonDirEntries]
    rw [runWalk_append u acc _ _ _ (runWalk_walkDir u jp n _ acc h.1),
      runWalk_walkEntries u jp ns path _ h.2, List.append_assoc]

/-- On a tree whose sentinel-named entries are all regular files, the
aggregate over the entries that are not directories is the aggregate over the
regular files. -/
theorem nonDirCollect_eq_specCollect (u : GoString → Except GoString (List PathInstruction)) :
    ∀ (t : FsNode), sentinelsRegular t = true → nonDirCollect u t = specCollect u t
  | .file name kind read, h => by
    simp only [nonDirCollect, specCollect]
    by_cases hn : name = sentinelName
    · simp only [sentinelsRegular, hn, if_true, decide_eq_true_eq] at h
      simp [hn, h]
    · simp [hn]
  | .dir name rerr entries, h => by
    simp only [sentinelsRegular] at h
    simp only [nonDirCollect, specCollect]
    exact nonDirEntries_eq_specEntries u entries h
where
  nonDirEntries_eq_specEntries (u : GoString → Except GoString (List PathInstruction)) :
    ∀ (ns : List FsNode), sentinelsRegular.regularEntries ns = true →
      nonDirCollect.nonDirEntries u ns = specCollect.specEntries u ns
  | [], _ => by simp [nonDirCollect.nonDirEntries, specCollect.specEntries]
  | n :: ns, h => by
    simp only [sentinelsRegular.regularEntries, Bool.and_eq_true] at h
    simp only [nonDirCollect.nonDirEntries, specCollect.specEntries]
    rw [nonDirCollect_eq_specCollect u n h.1, nonDirEntries_eq_specEntries u ns h.2]

/-! ## The claims -/

/-- C1: for every non-empty `inner` that contains neither an opening nor a
closing brace, `generateFilePattern` applied to the folder pattern around
`inner` is the file pattern around J, where J is obtained by splitting
`inner` on commas, trimming each piece, discarding the empty pieces,
appending a star to each remaining piece and joining them with commas in
order; and the three examples of the specification evaluate as stated. -/
theorem C1_generateFilePattern_folder_shape :
    (∀ inner : GoString, inner ≠ [] → '{' ∉ inner → '}' ∉ inner →
      generateFilePattern ("**/\x7b".toList ++ inner ++ "\x7d*/**".toList) =
        "**/*\x7b".toList ++ Join (specFileKeywords inner) ",".toList ++ "\x7d*".toList) ∧
    generateFilePattern "**/\x7ba,b,c\x7d*/**".toList = "**/*\x7ba*,b*,c*\x7d*".toList ∧
    generateFilePattern "**/\x7b a , b\x7d*/**".toList = "**/*\x7ba*,b*\x7d*".toList ∧
    generateFilePattern "**/\x7ba,,b\x7d*/**".toList = "**/*\x7ba*,b*\x7d*".toList := by
  refine ⟨?_, by decide, by decide, by decide⟩
  intro inner hne _ hnot
  exact generateFilePattern_folderPattern inner hne hnot

/-- Witness of C1 at the keyword list `http, grpc`. -/
theorem C1_generateFilePattern_folder_shape_witness :
    ("http, grpc".toList ≠ [] ∧ '{' ∉ "http, grpc".toList ∧ '}' ∉ "http, grpc".toList) ∧
    generateFilePattern ("**/\x7b".toList ++ "http, grpc".toList ++ "\x7d*/**".toList) =
      "**/*\x7b".toList ++ Join (specFileKeywords "http, grpc".toList) ",".toList ++
        "\x7d*".toList :=
  ⟨⟨by decide, by decide, by decide⟩,
    C1_generateFilePattern_folder_shape.1 "http, grpc".toList (by decide) (by decide)
      (by decide)⟩

/-- C2 at two inputs that are not of the exact shape taken as a whole and only
contain it as a substring: `src/**/{a,b}*/**` and `**/{a,b}*/**/x.go`.  The
claim asks for each to be returned unchanged; `generateFilePattern` returns
the file pattern of `a,b` for both, and the text around the occurrence (the
leading `src/`, the trailing `/x.go`) is lost. -/
theorem C2_generateFilePattern_unanchored :
    (exactShape "src/**/\x7ba,b\x7d*/**".toList = false ∧
      generateFilePattern "src/**/\x7ba,b\x7d*/**".toList = "**/*\x7ba*,b*\x7d*".toList ∧
      generateFilePattern "src/**/\x7ba,b\x7d*/**".toList ≠
        "src/**/\x7ba,b\x7d*/**".toList) ∧
    (exactShape "**/\x7ba,b\x7d*/**/x.go".toList = false ∧
      generateFilePattern "**/\x7ba,b\x7d*/**/x.go".toList = "**/*\x7ba*,b*\x7d*".toList ∧
      generateFilePattern "**/\x7ba,b\x7d*/**/x.go".toList ≠
        "**/\x7ba,b\x7d*/**/x.go".toList) := by
  decide

/-- C3, as amended: an input with nested braces or more than one brace group
that contains no occurrence of the shape is not recognised and is returned
unchanged.  That is so for every keyword list that encloses a complete nested
brace group (the opening, `a`, an opening brace, `b`, a closing brace, `c` and
the closing, where `a` and `b` hold no closing brace, `c` holds no opening
brace and does not begin with `*/**`), as `**/{a,{b,c}}*/**`, and for the two
groups of `**/{a}/{b}*/**`.  An opening brace inside the keyword list that is
not closed before the closing brace of the group does not prevent
recognition: it is a rune of its keyword, and `**/{a,{b}*/**` gives
`**/*{a*,{b*}*`. -/
theorem C3_generateFilePattern_nested_group :
    (∀ s : GoString,
      (¬ ∃ pre X post, X ≠ [] ∧ '}' ∉ X ∧
        s = pre ++ "**/\x7b".toList ++ X ++ "\x7d*/**".toList ++ post) →
      generateFilePattern s = s) ∧
    (∀ a b c : GoString, '}' ∉ a → '}' ∉ b → '{' ∉ c →
      HasPrefix c "*/**".toList = false →
      generateFilePattern ("**/\x7b".toList ++ a ++ "\x7b".toList ++ b ++ "\x7d".toList ++ c ++
          "\x7d*/**".toList) =
        "**/\x7b".toList ++ a ++ "\x7b".toList ++ b ++ "\x7d".toList ++ c ++
          "\x7d*/**".toList) ∧
    generateFilePattern "**/\x7ba,\x7bb,c\x7d\x7d*/**".toList =
      "**/\x7ba,\x7bb,c\x7d\x7d*/**".toList ∧
    generateFilePattern "**/\x7ba\x7d/\x7bb\x7d*/**".toList =
      "**/\x7ba\x7d/\x7bb\x7d*/**".toList ∧
    (∀ inner : GoString, inner ≠ [] → '}' ∉ inner →
      generateFilePattern ("**/\x7b".toList ++ inner ++ "\x7d*/**".toList) =
        "**/*\x7b".toList ++ Join (specFileKeywords inner) ",".toList ++ "\x7d*".toList) ∧
    generateFilePattern "**/\x7ba,\x7bb\x7d*/**".toList = "**/*\x7ba*,\x7bb*\x7d*".toList := by
  refine ⟨?_, ?_, by decide, by decide, ?_, by decide⟩
  · intro s h
    exact generateFilePattern_of_nil s ((FindStringSubmatch_eq_nil_iff s).mpr h)
  · intro a b c ha hb hc1 hc
    apply generateFilePattern_of_nil
    rw [FindStringSubmatch_eq_nil_iff]
    exact not_ContainsShape_nested a b c ha hb hc1 hc
  · intro inner hne hnot
    exact generateFilePattern_folderPattern inner hne hnot

/-- Witness of C3 (amended): the nested group at `a = "a,"`, `b = "b,c"`,
`c = ""`, and the unclosed brace at the keyword list `a,{b`. -/
theorem C3_generateFilePattern_nested_group_witness :
    (('}' ∉ "a,".toList ∧ '}' ∉ "b,c".toList ∧ '{' ∉ "".toList ∧
        HasPrefix "".toList "*/**".toList = false) ∧
      generateFilePattern ("**/\x7b".toList ++ "a,".toList ++ "\x7b".toList ++ "b,c".toList ++
          "\x7d".toList ++ "".toList ++ "\x7d*/**".toList) =
        "**/\x7b".toList ++ "a,".toList ++ "\x7b".toList ++ "b,c".toList ++ "\x7d".toList ++
          "".toList ++ "\x7d*/**".toList) ∧
    (("a,\x7bb".toList ≠ [] ∧ '}' ∉ "a,\x7bb".toList) ∧
      generateFilePattern ("**/\x7b".toList ++ "a,\x7bb".toList ++ "\x7d*/**".toList) =
        "**/*\x7b".toList ++ Join (specFileKeywords "a,\x7bb".toList) ",".toList ++
          "\x7d*".toList) :=
  ⟨⟨by decide,
      C3_generateFilePattern_nested_group.2.1 "a,".toList "b,c".toList "".toList (by decide)
        (by decide) (by decide) (by decide)⟩,
    ⟨by decide,
      C3_generateFilePattern_nested_group.2.2.2.2.1 "a,\x7bb".toList (by decide) (by decide)⟩⟩

/-- C3 as stated fails: `**/{a,{b}*/**` has a nested brace, is recognised, and
is not returned unchanged. -/
theorem C3_counterexample :
    generateFilePattern "**/\x7ba,\x7bb\x7d*/**".toList = "**/*\x7ba*,\x7bb*\x7d*".toList ∧
    generateFilePattern "**/\x7ba,\x7bb\x7d*/**".toList ≠ "**/\x7ba,\x7bb\x7d*/**".toList := by
  decide

/-- C4: `expandPathInstructions` is the concatenation, over the entries in
order, of the block holding the entry alone when the expander returns its
path unchanged, and the entry followed by the derived entry (same
instructions, derived path) otherwise. -/
theorem C4_expandPathInstructions_blocks (xs : List PathInstruction) :
    expandPathInstructions xs =
      xs.flatMap (fun x =>
        if generateFilePattern x.Path = x.Path then [x]
        else [x, { Path := generateFilePattern x.Path, Instructions := x.Instructions }]) :=
  expandPathInstructions_eq_flatMap xs

/-- C5: the result `ys` of `expandPathInstructions xs` has between
`len(xs)` and `2 * len(xs)` entries; `xs` is a subsequence of `ys` in the
same order (there are strictly increasing positions at which `ys` holds the
entries of `xs`), and every other position of `ys` stands immediately after
the position of an input entry whose path the expander changes, and holds
the entry derived from it.  The two-entry example gives three entries with
the stated paths in the stated order. -/
theorem C5_expandPathInstructions_order :
    (∀ xs : List PathInstruction,
      xs.length ≤ (expandPathInstructions xs).length ∧
      (expandPathInstructions xs).length ≤ 2 * xs.length ∧
      xs.Sublist (expandPathInstructions xs) ∧
      ∃ pos : Nat → Nat,
        (∀ i j, i < j → j < xs.length → pos i < pos j) ∧
        (∀ i x, xs[i]? = some x → (expandPathInstructions xs)[pos i]? = some x) ∧
        (∀ j, j < (expandPathInstructions xs).length →
          (∃ i, i < xs.length ∧ pos i = j) ∨
          (∃ i x, xs[i]? = some x ∧ pos i + 1 = j ∧
            generateFilePattern x.Path ≠ x.Path ∧
            (expandPathInstructions xs)[j]? =
              some { Path := generateFilePattern x.Path, Instructions := x.Instructions }))) ∧
    (expandPathInstructions
        [{ Path := "**/\x7bhttp,grpc\x7d*/**".toList,
           Instructions := "Review for idiomatic error handling".toList },
         { Path := "**/src/**".toList,
           Instructions := "Check for unused imports".toList }]).map PathInstruction.Path =
      ["**/\x7bhttp,grpc\x7d*/**".toList, "**/*\x7bhttp*,grpc*\x7d*".toList,
        "**/src/**".toList] := by
  refine ⟨?_, by decide⟩
  intro xs
  refine ⟨length_le_expandPathInstructions xs, expandPathInstructions_length_le xs,
    sublist_expandPathInstructions xs, originalPos xs, ?_, ?_, ?_⟩
  · intro i j hij hj
    exact originalPos_lt xs i j hij (Nat.le_of_lt hj)
  · exact getElem?_originalPos xs
  · exact expandPathInstructions_cover xs

/-- C6, as amended: for every text and every indent that contains no
newline, `indentText(text, indent)` has as many newline-separated lines as
`text`, and its i-th line is the indent followed by the i-th line of `text`
when that line has a rune that is not white space, and is empty when that
line is blank; the example of the specification evaluates as stated. -/
theorem C6_indentText_lines :
    (∀ text indent : GoString, '\n' ∉ indent →
      (Split (indentText text indent) '\n').length = (Split text '\n').length ∧
      ∀ (i : Nat) (line : GoString), (Split text '\n')[i]? = some line →
        (Split (indentText text indent) '\n')[i]? =
          some (if (∃ c ∈ line, isSpace c = false) then indent ++ line else [])) ∧
    indentText "line1\n\nline2".toList "        ".toList =
      "        line1\n\n        line2".toList := by
  refine ⟨?_, by decide⟩
  intro text indent hi
  rw [Split_indentText text indent hi]
  refine ⟨by simp, ?_⟩
  intro i line hline
  rw [List.getElem?_map, hline]
  simp only [Option.map_some', specIndentLine, hasNonSpace, List.any_eq_true,
    Bool.not_eq_true', Option.some.injEq]

/-- Witness of C6 (amended) at the text `a`, blank line, ` b` and a
two-space indent. -/
theorem C6_indentText_lines_witness :
    '\n' ∉ "  ".toList ∧
    (Split (indentText "a\n \n b".toList "  ".toList) '\n').length =
      (Split "a\n \n b".toList '\n').length :=
  ⟨by decide, (C6_indentText_lines.1 "a\n \n b".toList "  ".toList (by decide)).1⟩

/-- C6 as stated fails for an indent that contains a newline: with the text
`a` and the indent made of one newline, the result is a newline followed by
`a`, which has two lines where the text has one. -/
theorem C6_counterexample :
    indentText "a".toList "\n".toList = "\na".toList ∧
    (Split (indentText "a".toList "\n".toList) '\n').length = 2 ∧
    (Split "a".toList '\n').length = 1 := by
  decide

/-- C7, as amended: over every directory tree in which all reads and parses
succeed, `collectPathInstructions` returns the concatenation, in traversal
order, of the parsed records of the entries that are not directories (regular
files, and also symbolic links and special files, which are read like them)
whose base name is exactly `path_instructions.yaml`, each entry's records in
file order.  On a tree whose entries of that name are all regular files this
is the aggregate over the regular files.  The callback leaves the aggregate as
it is on a directory and on an entry of any other name. -/
theorem C7_collectPathInstructions_sentinel
    (unmarshal : GoString → Except GoString (List PathInstruction))
    (joinPath : GoString → GoString → GoString)
    (configsDir : GoString) (tree : FsNode) (h : allSucceed unmarshal tree = true) :
    collectPathInstructions unmarshal joinPath configsDir (.ok tree) =
        .ok (nonDirCollect unmarshal tree) ∧
      (sentinelsRegular tree = true →
        collectPathInstructions unmarshal joinPath configsDir (.ok tree) =
          .ok (specCollect unmarshal tree)) ∧
      ∀ (all : List PathInstruction) (e : WalkEntry), e.err = none →
        (e.isDir = true ∨ e.name ≠ sentinelName) → walkFn unmarshal all e = .ok all := by
  have hmain : collectPathInstructions unmarshal joinPath configsDir (.ok tree) =
      .ok (nonDirCollect unmarshal tree) := by
    simp only [collectPathInstructions]
    rw [runWalk_walkDir unmarshal joinPath tree configsDir [] h]
    simp
  refine ⟨hmain, ?_, ?_⟩
  · intro hreg
    rw [hmain, nonDirCollect_eq_specCollect unmarshal tree hreg]
  · intro all e herr hcase
    unfold walkFn
    rw [herr]
    rcases hcase with hd | hn
    · simp [hd]
    · by_cases hs : HasSuffix e.name yamlSuffix = true <;> simp [hs, hn]

/-- Witness of C7 (amended) on the scenario tree: the two fragments are
collected in traversal order, and `other.yaml`, the file whose name only ends
in the sentinel name and the directory named as the sentinel contribute
nothing. -/
theorem C7_collectPathInstructions_sentinel_witness :
    allSucceed scenarioUnmarshal scenarioTree = true ∧
    collectPathInstructions scenarioUnmarshal scenarioJoin "cfg".toList (.ok scenarioTree) =
      .ok [{ Path := "**/\x7bhttp,grpc\x7d*/**".toList,
             Instructions := "Review for idiomatic error handling".toList },
           { Path := "**/src/**".toList,
             Instructions := "Check for unused imports".toList }] :=
  ⟨by decide,
    (C7_collectPathInstructions_sentinel scenarioUnmarshal scenarioJoin "cfg".toList
      scenarioTree (by decide)).1⟩

/-- C7 as stated fails: in a tree where `js/path_instructions.yaml` is a
symbolic link, every read and parse succeeds and the records behind the link
are collected, while the regular files named as the sentinel hold only the
`go` record. -/
theorem C7_counterexample :
    allSucceed scenarioUnmarshal symlinkTree = true ∧
    collectPathInstructions scenarioUnmarshal scenarioJoin "cfg".toList (.ok symlinkTree) =
      .ok [{ Path := "**/\x7bhttp,grpc\x7d*/**".toList,
             Instructions := "Review for idiomatic error handling".toList },
           { Path := "**/src/**".toList,
             Instructions := "Check for unused imports".toList }] ∧
    specCollect scenarioUnmarshal symlinkTree =
      [{ Path := "**/\x7bhttp,grpc\x7d*/**".toList,
         Instructions := "Review for idiomatic error handling".toList }] := by
  refine ⟨by decide, ?_, by decide⟩
  rfl

/-- C8: `generateFilePattern(s) = s` exactly when `s` contains no substring
made of `**/` and an opening brace, a non-empty X free of the closing brace,
and the closing brace and `*/**`.  Whenever the search recognises the pattern
the returned file pattern differs from the input, so the expansion pass emits
the derived entry for every recognised folder pattern. -/
theorem C8_generateFilePattern_eq_self_iff :
    (∀ s : GoString, generateFilePattern s = s ↔
      ¬ ∃ pre X post, X ≠ [] ∧ '}' ∉ X ∧
        s = pre ++ "**/\x7b".toList ++ X ++ "\x7d*/**".toList ++ post) ∧
    (∀ s : GoString, FindStringSubmatch s ≠ [] → generateFilePattern s ≠ s) ∧
    (∀ x : PathInstruction, FindStringSubmatch x.Path ≠ [] →
      expandPathInstructions [x] =
        [x, { Path := generateFilePattern x.Path, Instructions := x.Instructions }]) := by
  refine ⟨?_, ?_, ?_⟩
  · intro s
    rw [generateFilePattern_eq_self_iff, FindStringSubmatch_eq_nil_iff]
    rfl
  · intro s h heq
    exact h ((generateFilePattern_eq_self_iff s).mp heq)
  · intro x h
    have hne : generateFilePattern x.Path ≠ x.Path :=
      fun heq => h ((generateFilePattern_eq_self_iff _).mp heq)
    rw [expandPathInstructions_singleton]
    simp [specBlock, hne, derivedEntry]

/-- Witness of C8 at the folder pattern of `http` and `grpc`: the pattern is
recognised and the derived entry is emitted. -/
theorem C8_generateFilePattern_eq_self_iff_witness :
    FindStringSubmatch "**/\x7bhttp,grpc\x7d*/**".toList ≠ [] ∧
    generateFilePattern "**/\x7bhttp,grpc\x7d*/**".toList ≠
      "**/\x7bhttp,grpc\x7d*/**".toList :=
  ⟨by decide,
    C8_generateFilePattern_eq_self_iff.2.1 "**/\x7bhttp,grpc\x7d*/**".toList (by decide)⟩

/-- C9: `generateFilePattern` is idempotent; its output is never itself
recognised by the search, and expanding a derived entry again yields no
further entry. -/
theorem C9_generateFilePattern_idempotent :
    (∀ s : GoString, generateFilePattern (generateFilePattern s) = generateFilePattern s) ∧
    (∀ s : GoString, FindStringSubmatch (generateFilePattern s) = []) ∧
    (∀ x : PathInstruction,
      expandPathInstructions
          [{ Path := generateFilePattern x.Path, Instructions := x.Instructions }] =
        [{ Path := generateFilePattern x.Path, Instructions := x.Instructions }]) := by
  refine ⟨?_, FindStringSubmatch_generateFilePattern, ?_⟩
  · intro s
    exact generateFilePattern_of_nil _ (FindStringSubmatch_generateFilePattern s)
  · intro x
    have hid : generateFilePattern (generateFilePattern x.Path) = generateFilePattern x.Path :=
      generateFilePattern_of_nil _ (FindStringSubmatch_generateFilePattern x.Path)
    rw [expandPathInstructions_singleton]
    simp [specBlock, hid]

/-- C10: for every non-empty `inner` made only of commas and white space,
`generateFilePattern` applied to the folder pattern around `inner` returns
the file pattern with an empty brace group, and `expandPathInstructions`
emits, right after an entry with that path, a derived entry whose path is
that file pattern. -/
theorem C10_generateFilePattern_empty_group (inner : GoString) (hne : inner ≠ [])
    (h : ∀ c ∈ inner, c = ',' ∨ isSpace c = true) :
    generateFilePattern ("**/\x7b".toList ++ inner ++ "\x7d*/**".toList) =
        "**/*\x7b\x7d*".toList ∧
      ∀ (pre post : List PathInstruction) (ins : GoString),
        expandPathInstructions
            (pre ++ [{ Path := "**/\x7b".toList ++ inner ++ "\x7d*/**".toList,
                       Instructions := ins }] ++ post) =
          expandPathInstructions pre ++
            [{ Path := "**/\x7b".toList ++ inner ++ "\x7d*/**".toList, Instructions := ins },
             { Path := "**/*\x7b\x7d*".toList, Instructions := ins }] ++
            expandPathInstructions post := by
  have hg : generateFilePattern ("**/\x7b".toList ++ inner ++ "\x7d*/**".toList) =
      "**/*\x7b\x7d*".toList := by
    have h1 := generateFilePattern_folderPattern inner hne (not_mem_of_commas_spaces inner h)
    rw [specFilePattern, specFileKeywords_eq_nil inner h] at h1
    exact h1
  refine ⟨hg, ?_⟩
  intro pre post ins
  have hne2 : generateFilePattern ("**/\x7b".toList ++ inner ++ "\x7d*/**".toList) ≠
      "**/\x7b".toList ++ inner ++ "\x7d*/**".toList := by
    rw [hg]
    intro heq
    have := congrArg (fun l => l.get? 3) heq
    simp at this
  rw [expandPathInstructions_append, expandPathInstructions_append,
    expandPathInstructions_singleton]
  rw [hg] at hne2
  simp only [specBlock, derivedEntry, hg, if_neg hne2]

/-- Witness of C10 at the keyword lists `,` and a single space. -/
theorem C10_generateFilePattern_empty_group_witness :
    (",".toList ≠ [] ∧ ∀ c ∈ ",".toList, c = ',' ∨ isSpace c = true) ∧
    generateFilePattern "**/\x7b,\x7d*/**".toList = "**/*\x7b\x7d*".toList ∧
    (" ".toList ≠ [] ∧ ∀ c ∈ " ".toList, c = ',' ∨ isSpace c = true) ∧
    generateFilePattern "**/\x7b \x7d*/**".toList = "**/*\x7b\x7d*".toList :=
  ⟨⟨by decide, by decide⟩,
    (C10_generateFilePattern_empty_group ",".toList (by decide) (by decide)).1,
    ⟨by decide, by decide⟩,
    (C10_generateFilePattern_empty_group " ".toList (by decide) (by decide)).1⟩

end Merge
